import Mathlib

/-!
Shallow embedding of the online embedding-refinement subsystem of
TrainingTheArchive (files `ArtSearch.py`, `SearchEngine.py`, `Embedding.py`).

Modelling conventions:
* Boolean relevance tensors (`self.positive` / `self.negative`, shape
  `[groups+1, N]`) become `List (List Bool)`; row 0 is the canvas/global group.
* Discrete tensor arithmetic used by the search path (masked dot products,
  `topk`) is modelled over exact rationals `ℚ`; the pretrained encoders are
  opaque, so query feature vectors and the stored embedding tables are
  parameters.
* The correction-network arithmetic (`Embedding.py`), which uses `exp`,
  `sqrt` and cosine distances, is modelled over the reals; vectors of
  dimension `d` are functions `Fin d → ℝ`.
* Python list / torch indexing semantics are modelled explicitly where a
  claim depends on them (`deserialize` index wrap-around and failure).
-/

namespace TTA

/-! ### Generic helpers -/

/-- Rectified linear unit `torch.relu`. -/
def relu {α : Type*} [LinearOrder α] [Zero α] (x : α) : α := max x 0

/-- `tensor.mean()` over a 1-D tensor, as list sum divided by length
(the empty case is never used by the modelled code paths). -/
def meanQ (l : List ℚ) : ℚ := l.sum / l.length

/-- `tensor.max()` over a 1-D tensor modelled as a list; the empty case
(0) is never reached by the modelled code paths. -/
def listMax {α : Type*} [LinearOrder α] [Zero α] : List α → α
  | [] => 0
  | x :: t => t.foldl max x

/-- Dot product of two rational vectors given as lists
(`a @ b` for 1-D tensors). -/
def dotQ (u v : List ℚ) : ℚ := (List.zipWith (fun a b => a * b) u v).sum

/-- A vector is L2-normalized, expressed without square roots:
its dot product with itself is 1. -/
def unitQ (v : List ℚ) : Prop := dotQ v v = 1

instance : DecidablePred unitQ := fun v => inferInstanceAs (Decidable (dotQ v v = 1))

/-! ### Relevance state (`ArtSearch.py`)

`ArtSearch` keeps `positive` and `negative` boolean matrices with one row per
group (row 0 = canvas) plus the list of user groups.  Group objects are
identified by a numeric id here; `len(self.paths)` is the field `n`. -/

structure ArtSearch where
  n : ℕ
  groups : List ℕ
  positive : List (List Bool)
  negative : List (List Bool)
deriving DecidableEq

/-- Mutation `m[0][i] = v` of the first row of a boolean matrix. -/
def setRow0 (m : List (List Bool)) (i : ℕ) (v : Bool) : List (List Bool) :=
  match m with
  | [] => []
  | r :: rest => r.set i v :: rest

/-- `ArtSearch.setImagePositive`: `positive[0][id] = True; negative[0][id] = False`. -/
def ArtSearch.setImagePositive (s : ArtSearch) (image_id : ℕ) : ArtSearch :=
  ⟨s.n, s.groups, setRow0 s.positive image_id true, setRow0 s.negative image_id false⟩

/-- `ArtSearch.setImageNegative`: `positive[0][id] = False; negative[0][id] = True`. -/
def ArtSearch.setImageNegative (s : ArtSearch) (image_id : ℕ) : ArtSearch :=
  ⟨s.n, s.groups, setRow0 s.positive image_id false, setRow0 s.negative image_id true⟩

/-- `ArtSearch.setImageNeutral`: `positive[0][id] = False; negative[0][id] = False`. -/
def ArtSearch.setImageNeutral (s : ArtSearch) (image_id : ℕ) : ArtSearch :=
  ⟨s.n, s.groups, setRow0 s.positive image_id false, setRow0 s.negative image_id false⟩

/-- `ArtSearch.create_group`: appends the group, and when
`len(self.groups) >= len(self.positive)` grows both matrices by one row:
`positive` by `torch.zeros_like(self.positive[:1])` (an all-false row) and
`negative` by `self.negative[:1].clone()` (a copy of the canvas row). -/
def ArtSearch.create_group (s : ArtSearch) (g : ℕ) : ArtSearch :=
  let groups := s.groups ++ [g]
  if s.positive.length ≤ groups.length then
    ⟨s.n, groups,
      s.positive ++ [s.positive.headI.map (fun _ => false)],
      s.negative ++ [s.negative.headI]⟩
  else
    ⟨s.n, groups, s.positive, s.negative⟩

/-- `ArtSearch.remove_group`: `index = groups.index(group) + 1`, removes the
group from the list and deletes row `index` from both matrices. -/
def ArtSearch.remove_group (s : ArtSearch) (g : ℕ) : ArtSearch :=
  let index := s.groups.indexOf g + 1
  ⟨s.n, s.groups.erase g, s.positive.eraseIdx index, s.negative.eraseIdx index⟩

/-- `ArtSearch.updateGroup`: row `index+1` of `positive` is rebuilt from
scratch out of the passed id list, same for `negative`. -/
def ArtSearch.updateGroup (s : ArtSearch) (g : ℕ) (pos neg : List ℕ) : ArtSearch :=
  let index := s.groups.indexOf g
  let zero := fun (r : List Bool) => r.map (fun _ => false)
  let build := fun (r : List Bool) (ids : List ℕ) =>
    ids.foldl (fun row i => row.set i true) (zero r)
  ⟨s.n, s.groups,
    s.positive.set (index + 1) (build (s.positive.getD index []) pos),
    s.negative.set (index + 1) (build (s.negative.getD index []) neg)⟩

/-- The payload of `ArtSearch.serialize`: exactly the two id lists of
group 0 (integers, as produced by `tensor.nonzero().flatten().tolist()`). -/
structure SaveData where
  positive : List ℤ
  negative : List ℤ
deriving DecidableEq

/-- `tensor.nonzero().flatten().tolist()` for a 1-D boolean tensor:
the indices holding `true`, in increasing order. -/
def nonzeroIdx (row : List Bool) : List ℕ :=
  (List.range row.length).filter (fun i => row.getD i false)

/-- `ArtSearch.serialize`. -/
def ArtSearch.serialize (s : ArtSearch) : SaveData :=
  ⟨(nonzeroIdx s.positive.headI).map Int.ofNat,
    (nonzeroIdx s.negative.headI).map Int.ofNat⟩

/-- `row[i] = True` with torch/Python integer indexing semantics: an index in
`[0, len)` is used directly, an index in `[-len, 0)` wraps around, and any
other index raises `IndexError` (modelled by `none`). -/
def torchSetTrue (row : List Bool) (i : ℤ) : Option (List Bool) :=
  if 0 ≤ i ∧ i < (row.length : ℤ) then some (row.set i.toNat true)
  else if -(row.length : ℤ) ≤ i ∧ i < 0 then some (row.set (i + row.length).toNat true)
  else none

/-- The `for index in data[...]` loop of `deserialize`: applies the indices in
order; stops at the first invalid index, returning the row as mutated so far
together with an error flag. -/
def applyIdxs (row : List Bool) (idxs : List ℤ) : List Bool × Bool :=
  match idxs with
  | [] => (row, false)
  | i :: rest =>
    match torchSetTrue row i with
    | some r => applyIdxs r rest
    | none => (row, true)

/-- `ArtSearch.deserialize`: clears the group list, resets both matrices to a
single all-false row of length `n`, then applies the persisted `positive`
indices and afterwards the `negative` indices.  The returned flag records
whether an `IndexError` escaped; the returned state is the object state at
that moment (Python mutates `self` in place before raising). -/
def ArtSearch.deserialize (s : ArtSearch) (data : SaveData) : ArtSearch × Bool :=
  let z : List Bool := List.replicate s.n false
  let rp := applyIdxs z data.positive
  if rp.2 then (⟨s.n, [], [rp.1], [z]⟩, true)
  else
    let rn := applyIdxs z data.negative
    (⟨s.n, [], [rp.1], [rn.1]⟩, rn.2)

/-- `setAll base idxs` folds `row.set i true` over `idxs`; it is what
`applyIdxs` computes when every index is a valid non-negative position. -/
def setAll (base : List Bool) (idxs : List ℕ) : List Bool :=
  idxs.foldl (fun r i => r.set i true) base

/-- An integer is a valid torch index for a row of length `N`. -/
def inRangeZ (N : ℕ) (i : ℤ) : Prop := -(N : ℤ) ≤ i ∧ i < (N : ℤ)

instance : ∀ N i, Decidable (inRangeZ N i) := fun N i =>
  inferInstanceAs (Decidable (-(N : ℤ) ≤ i ∧ i < (N : ℤ)))

/-- `ArtSearch.restrict_search`: drops filter result lists that came back
empty; with no remaining filters the validity mask is
`¬positive[0] ∧ ¬negative[0]`, otherwise additionally the item must lie in
the intersection of all filter result id lists. -/
def restrict_search (pos0 neg0 : List Bool) (filter_results : List (List ℕ)) : List Bool :=
  let rs := filter_results.filter (fun l => !l.isEmpty)
  if rs.isEmpty then
    (List.range pos0.length).map (fun i => !(pos0.getD i false) && !(neg0.getD i false))
  else
    (List.range pos0.length).map (fun i =>
      (rs.all (fun l => decide (i ∈ l))) && !(pos0.getD i false) && !(neg0.getD i false))

/-! ### Search (`SearchEngine.py`)

`SearchEngine.search_by_text` / `search_by_image` zero out the rows of the
active table at mask-invalid positions, take the dot product with the query
features, and return the indices of the `min(topk, #valid)` largest
similarities.  The pretrained encoder is opaque, so the query enters as its
feature vector.  torch's `topk` tie order is not specified; it is modelled
as value-descending with ties broken by smaller index. -/

structure SearchEngine where
  encodings : List (List ℚ)
  embeddings : List (List ℚ)
  use_embedding : Bool

/-- The table the similarity is computed against (`self.embeddings` in focus
mode, `self.encodings` otherwise). -/
def SearchEngine.table (e : SearchEngine) : List (List ℚ) :=
  if e.use_embedding then e.embeddings else e.encodings

/-- Row `i` of `(table * valid.unsqueeze(1)) @ q`: the masked similarity,
which is exactly 0 at mask-invalid rows. -/
def sim_row (tbl : List (List ℚ)) (valid : List Bool) (q : List ℚ) (i : ℕ) : ℚ :=
  if valid.getD i false then dotQ (tbl.getD i []) q else 0

/-- All `(index, masked similarity)` pairs. -/
def rank_pairs (tbl : List (List ℚ)) (valid : List Bool) (q : List ℚ) : List (ℕ × ℚ) :=
  (List.range tbl.length).map (fun i => (i, sim_row tbl valid q i))

/-- Ranking order used to model `topk`: larger similarity first, ties broken
by smaller index. -/
def simRank (a b : ℕ × ℚ) : Prop := b.2 < a.2 ∨ (a.2 = b.2 ∧ a.1 ≤ b.1)

instance : DecidableRel simRank := fun a b =>
  inferInstanceAs (Decidable (b.2 < a.2 ∨ (a.2 = b.2 ∧ a.1 ≤ b.1)))

instance : IsTotal (ℕ × ℚ) simRank := by
  constructor
  intro a b
  rcases lt_trichotomy a.2 b.2 with h | h | h
  · exact Or.inr (Or.inl h)
  · rcases Nat.le_total a.1 b.1 with h1 | h1
    · exact Or.inl (Or.inr ⟨h, h1⟩)
    · exact Or.inr (Or.inr ⟨h.symm, h1⟩)
  · exact Or.inl (Or.inl h)

instance : IsTrans (ℕ × ℚ) simRank := by
  constructor
  intro a b c hab hbc
  rcases hab with h1 | ⟨h1, h1'⟩ <;> rcases hbc with h2 | ⟨h2, h2'⟩
  · exact Or.inl (h2.trans h1)
  · exact Or.inl (h2 ▸ h1)
  · exact Or.inl (h1 ▸ h2)
  · exact Or.inr ⟨h1.trans h2, h1'.trans h2'⟩

/-- `similarity.topk(m).indices`. -/
def topk_indices (tbl : List (List ℚ)) (valid : List Bool) (q : List ℚ) (m : ℕ) : List ℕ :=
  (((rank_pairs tbl valid q).insertionSort simRank).take m).map Prod.fst

/-- `SearchEngine.search_by_text` with the tokenizer/encoder abstracted into
the feature vector: clamps `topk` to `valid.nonzero().shape[0]` and ranks the
masked similarities. -/
def SearchEngine.search_by_text (e : SearchEngine) (valid : List Bool)
    (text_features : List ℚ) (topk : ℕ) : List ℕ :=
  topk_indices e.table valid text_features (min topk (valid.count true))

/-- `SearchEngine.search_by_image`, identical to the text path modulo the
encoder producing the feature vector. -/
def SearchEngine.search_by_image (e : SearchEngine) (valid : List Bool)
    (image_features : List ℚ) (topk : ℕ) : List ℕ :=
  topk_indices e.table valid image_features (min topk (valid.count true))

/-! ### Margin loss (`Embedding.py`, `CenterMarginLoss`) -/

/-- `CenterMarginLoss.forward`: `pos_dists`/`neg_dists` are the cosine
distances of positives/negatives to the center; the loss is
`pos_dists.mean() + relu(pos_dists.max() - neg_dists + margin).mean()`. -/
def CenterMarginLoss.forward (margin : ℚ) (center : List ℚ)
    (pos neg : List (List ℚ)) : ℚ :=
  let pos_dists := pos.map (fun p => 1 - dotQ center p)
  let neg_dists := neg.map (fun q => 1 - dotQ center q)
  let posTerm := pos_dists
  let negTerm := neg_dists.map (fun dq => relu (listMax pos_dists - dq + margin))
  meanQ posTerm + meanQ negTerm

/-- The margin the `Embedder` constructor passes to `CenterMarginLoss`
(`CenterMarginLoss(0.1)` in `Embedder.__init__`). -/
def embedderMargin : ℚ := 1 / 10

/-- The loss exactly as the specification states it:
`L = mean(d(c,p) for p in P) + mean(relu(max_p d(c,p) - d(c,q) + margin) for q in Q)`
with `d(x,y) = 1 - x·y`. -/
def specMarginLoss (margin : ℚ) (c : List ℚ) (P Q : List (List ℚ)) : ℚ :=
  meanQ (P.map (fun p => 1 - dotQ c p)) +
    meanQ (Q.map (fun q =>
      relu (listMax (P.map (fun p => 1 - dotQ c p)) - (1 - dotQ c q) + margin)))

/-! ### Correction network (`Embedding.py`, `LocalSplitMLP`) -/

/-- Real vectors of dimension `d`. -/
abbrev Vec (d : ℕ) : Type := Fin d → ℝ

/-- Square matrices, `nn.Linear` weights. -/
abbrev Mat (d : ℕ) : Type := Fin d → Fin d → ℝ

/-- Dot product over `Fin d → ℝ`. -/
def dotR {d : ℕ} (u v : Vec d) : ℝ := ∑ i, u i * v i

noncomputable section

/-- `fn.normalize(v, dim=-1)` for one row: divide by the L2 norm (with the
zero vector mapped to zero, the exact-arithmetic limit of torch's
eps-clamped division). -/
def nrm {d : ℕ} (v : Vec d) : Vec d :=
  (Real.sqrt (dotR v v))⁻¹ • v

/-- `LocalSplitMLP` state: the transient center list plus the two affine
maps (image / text), each a weight matrix and bias. -/
structure LocalSplitMLP (d : ℕ) where
  center : List (Vec d)
  mlp_image_weight : Mat d
  mlp_image_bias : Vec d
  mlp_text_weight : Mat d
  mlp_text_bias : Vec d

/-- `nn.Linear`: `x ↦ W x + b` (row convention of torch,
`y_i = Σ_j W i j * x j + b i`). -/
def linearApply {d : ℕ} (W : Mat d) (b : Vec d) (x : Vec d) : Vec d :=
  fun i => (∑ j, W i j * x j) + b i

/-- The entries of `torch.exp(-10 * (1 - normalize(inp) @ normalize(cat(center)).T))`,
flattened: one entry per (input row, center row) pair. -/
def pairSims {d : ℕ} (inp centers : List (Vec d)) : List ℝ :=
  (inp.map nrm).flatMap (fun a =>
    (centers.map nrm).map (fun b => Real.exp (-10 * (1 - dotR a b))))

/-- `LocalSplitMLP.weight`: zero when no centers are registered, otherwise
`.max()` of the whole exponential-similarity matrix — note this is a single
scalar for the entire batch `inp`. -/
def LocalSplitMLP.weight {d : ℕ} (m : LocalSplitMLP d) (inp : List (Vec d)) : ℝ :=
  if m.center.isEmpty then 0 else listMax (pairSims inp m.center)

/-- `LocalSplitMLP.encode_image` (which, in the source, applies `mlp_text`):
blend the normalized affine image of each row with the raw row, using the
one shared gate `weight`, and re-normalize. -/
def LocalSplitMLP.encode_image {d : ℕ} (m : LocalSplitMLP d) (inp : List (Vec d)) :
    List (Vec d) :=
  let w := m.weight inp
  inp.map (fun x =>
    nrm (w • nrm (linearApply m.mlp_text_weight m.mlp_text_bias x) + (1 - w) • x))

/-- `LocalSplitMLP.encode_text` (which, in the source, applies `mlp_image`). -/
def LocalSplitMLP.encode_text {d : ℕ} (m : LocalSplitMLP d) (inp : List (Vec d)) :
    List (Vec d) :=
  let w := m.weight inp
  inp.map (fun x =>
    nrm (w • nrm (linearApply m.mlp_image_weight m.mlp_image_bias x) + (1 - w) • x))

/-- `Embedder.optimize_embedding`: one pass over the groups; a group whose
positive or negative example set is empty is skipped, otherwise one optimizer
step is taken.  The gradient step itself (backward + Adam) is abstracted as
an arbitrary parameter-update function `step`, so the control flow is exactly
the source's and the theorems hold for any optimizer. -/
def Embedder.optimize_embedding {d : ℕ} {γ : Type*}
    (step : LocalSplitMLP d → ℕ → LocalSplitMLP d) (m : LocalSplitMLP d)
    (group_embeddings : List γ)
    (pos_example neg_example : List (List (Vec d))) : LocalSplitMLP d :=
  (List.range group_embeddings.length).foldl
    (fun cur j =>
      if (pos_example.getD j []).isEmpty || (neg_example.getD j []).isEmpty then cur
      else step cur j) m

/-- `SearchEngine.update_embedding`: the refined table is the image encoding
of the full frozen table (`refine_image_embedding(self.encodings)[0]`). -/
def update_embedding {d : ℕ} (m : LocalSplitMLP d) (encodings : List (Vec d)) :
    List (Vec d) :=
  m.encode_image encodings

/-- The identity weight matrix in dimension 2 (the initialization of
`mlp_image`/`mlp_text` in the source). -/
def idm2 : Mat 2 := fun i j => if i = j then 1 else 0

/-- A concrete reachable correction-model state in dimension 2: one center
at `(1,0)`, identity weights, and a trained-away text bias `(1,0)`. -/
def mC2 : LocalSplitMLP 2 := ⟨[![1, 0]], idm2, ![0, 0], idm2, ![1, 0]⟩

end

/-! ### List helper lemmas -/

theorem getD_set_same {α : Type*} (l : List α) (i : ℕ) (v d : α) (h : i < l.length) :
    (l.set i v).getD i d = v := by
  induction l generalizing i with
  | nil => simp at h
  | cons a t ih =>
    cases i with
    | zero => rfl
    | succ i =>
      simp only [List.set, List.getD_cons_succ]
      exact ih i (by simpa using h)

theorem getD_set_ne {α : Type*} (l : List α) (i j : ℕ) (v d : α) (h : j ≠ i) :
    (l.set i v).getD j d = l.getD j d := by
  induction l generalizing i j with
  | nil => rfl
  | cons a t ih =>
    cases i with
    | zero =>
      cases j with
      | zero => exact absurd rfl h
      | succ j => rfl
    | succ i =>
      cases j with
      | zero => rfl
      | succ j =>
        simp only [List.set, List.getD_cons_succ]
        exact ih i j (fun hji => h (by omega))

theorem getD_eraseIdx_lt {α : Type*} (l : List α) (i j : ℕ) (d : α) (h : j < i) :
    (l.eraseIdx i).getD j d = l.getD j d := by
  induction l generalizing i j with
  | nil => rfl
  | cons a t ih =>
    cases i with
    | zero => omega
    | succ i =>
      cases j with
      | zero => rfl
      | succ j =>
        simp only [List.eraseIdx, List.getD_cons_succ]
        exact ih i j (by omega)

theorem getD_eraseIdx_ge {α : Type*} (l : List α) (i j : ℕ) (d : α) (h : i ≤ j) :
    (l.eraseIdx i).getD j d = l.getD (j + 1) d := by
  induction l generalizing i j with
  | nil => rfl
  | cons a t ih =>
    cases i with
    | zero => rfl
    | succ i =>
      cases j with
      | zero => omega
      | succ j =>
        simp only [List.eraseIdx, List.getD_cons_succ]
        exact ih i j (by omega)

theorem getD_concat_length {α : Type*} (l : List α) (x d : α) :
    (l ++ [x]).getD l.length d = x := by
  induction l with
  | nil => rfl
  | cons a t ih => simpa using ih

theorem getD_map_const_false (l : List Bool) (i : ℕ) :
    (l.map (fun _ => false)).getD i false = false := by
  induction l generalizing i with
  | nil => rfl
  | cons a t ih =>
    cases i with
    | zero => rfl
    | succ i => exact ih i

theorem setRow0_headI (m : List (List Bool)) (i : ℕ) (v : Bool) :
    (setRow0 m i v).headI = m.headI.set i v := by
  cases m with
  | nil => rfl
  | cons r rest => rfl

theorem setRow0_getD_pos (m : List (List Bool)) (i : ℕ) (v : Bool) (r : ℕ) (h : 1 ≤ r) :
    (setRow0 m i v).getD r [] = m.getD r [] := by
  cases m with
  | nil => rfl
  | cons a t =>
    cases r with
    | zero => omega
    | succ r => rfl

/-! ### C4: `create_group` -/

/-- C4 counterexample: starting from a state whose canvas has one rejected
item, `create_group` produces a new group in which that item is already
negative — the new group's negative set is not empty. -/
theorem create_group_negative_not_empty :
    ((ArtSearch.create_group ⟨1, [], [[false]], [[true]]⟩ 0).negative.getD 1 []).getD 0 false
        = true
      ∧ (ArtSearch.create_group ⟨1, [], [[false]], [[true]]⟩ 0).groups = [0] := by
  decide

/-- C4 (corrected): `create_group` appends a group whose positive row is
all-false but whose negative row is a copy of the canvas (group 0) negative
row at call time; the new group is therefore only empty on the negative side
when no item is currently rejected on the canvas. -/
theorem create_group_appends (s : ArtSearch) (g : ℕ)
    (hlen : s.positive.length = s.groups.length + 1)
    (hlen2 : s.negative.length = s.positive.length) :
    (s.create_group g).groups = s.groups ++ [g]
      ∧ (s.create_group g).positive
          = s.positive ++ [s.positive.headI.map (fun _ => false)]
      ∧ (s.create_group g).negative = s.negative ++ [s.negative.headI]
      ∧ (∀ i, ((s.create_group g).positive.getD s.positive.length []).getD i false = false)
      ∧ (s.create_group g).negative.getD s.positive.length [] = s.negative.headI := by
  have hcond : s.positive.length ≤ (s.groups ++ [g]).length := by
    simp [hlen]
  simp only [ArtSearch.create_group, if_pos hcond]
  refine ⟨trivial, trivial, trivial, ?_, ?_⟩
  · intro i
    rw [getD_concat_length]
    exact getD_map_const_false _ _
  · rw [← hlen2]
    exact getD_concat_length _ _ _

/-- Witness for `create_group_appends` at a concrete state. -/
theorem create_group_appends_witness :
    (⟨2, [7], [[false, true], [false, false]], [[true, false], [false, false]]⟩ :
        ArtSearch).positive.length
        = (⟨2, [7], [[false, true], [false, false]], [[true, false], [false, false]]⟩ :
            ArtSearch).groups.length + 1
      ∧ ((⟨2, [7], [[false, true], [false, false]], [[true, false], [false, false]]⟩ :
            ArtSearch).create_group 9).groups = [7] ++ [9] :=
  ⟨by decide,
    (create_group_appends ⟨2, [7], [[false, true], [false, false]],
        [[true, false], [false, false]]⟩ 9 (by decide) (by decide)).1⟩

/-! ### C5: `remove_group` -/

/-- C5 (confirmed): removing a user group present in the state decreases the
group count by exactly one; rows strictly below the removed row are
unchanged, and every row at or above the removed position now holds the
vectors previously held one position higher. -/
theorem remove_group_shifts (s : ArtSearch) (g : ℕ) (hg : g ∈ s.groups) :
    ((s.remove_group g).groups.length + 1 = s.groups.length)
      ∧ (∀ j, j < s.groups.indexOf g + 1 →
          (s.remove_group g).positive.getD j [] = s.positive.getD j []
            ∧ (s.remove_group g).negative.getD j [] = s.negative.getD j [])
      ∧ (∀ j, s.groups.indexOf g + 1 ≤ j →
          (s.remove_group g).positive.getD j [] = s.positive.getD (j + 1) []
            ∧ (s.remove_group g).negative.getD j [] = s.negative.getD (j + 1) []) := by
  refine ⟨?_, ?_, ?_⟩
  · have h1 : (s.groups.erase g).length = s.groups.length - 1 :=
      List.length_erase_of_mem hg
    have h2 : 0 < s.groups.length := List.length_pos.mpr (List.ne_nil_of_mem hg)
    simp only [ArtSearch.remove_group]
    omega
  · intro j hj
    exact ⟨getD_eraseIdx_lt _ _ _ _ hj, getD_eraseIdx_lt _ _ _ _ hj⟩
  · intro j hj
    exact ⟨getD_eraseIdx_ge _ _ _ _ hj, getD_eraseIdx_ge _ _ _ _ hj⟩

/-- Witness for `remove_group_shifts` at a concrete state. -/
theorem remove_group_shifts_witness :
    (4 ∈ [4] ∧
      ((⟨1, [4], [[true], [false]], [[false], [true]]⟩ : ArtSearch).remove_group 4).groups.length
          + 1 = 1) :=
  ⟨by decide,
    (remove_group_shifts ⟨1, [4], [[true], [false]], [[false], [true]]⟩ 4 (by decide)).1⟩

/-! ### C10: frame property of the canvas marking operations -/

/-- C10 (confirmed): `setImagePositive` / `setImageNegative` /
`setImageNeutral` change only entry `i` of the canvas (group 0) rows: the
marked entry gets the expected pair of values, every other entry of row 0 is
untouched, every row with index at least 1 is untouched, and the group list
is untouched. -/
theorem mark_canvas_frame (s : ArtSearch) (i : ℕ)
    (hip : i < s.positive.headI.length) (hin : i < s.negative.headI.length) :
    ((s.setImagePositive i).groups = s.groups
        ∧ (s.setImagePositive i).positive.headI.getD i false = true
        ∧ (s.setImagePositive i).negative.headI.getD i false = false
        ∧ (∀ j, j ≠ i →
            (s.setImagePositive i).positive.headI.getD j false
                = s.positive.headI.getD j false
              ∧ (s.setImagePositive i).negative.headI.getD j false
                = s.negative.headI.getD j false)
        ∧ (∀ r, 1 ≤ r →
            (s.setImagePositive i).positive.getD r [] = s.positive.getD r []
              ∧ (s.setImagePositive i).negative.getD r [] = s.negative.getD r []))
      ∧ ((s.setImageNegative i).groups = s.groups
        ∧ (s.setImageNegative i).positive.headI.getD i false = false
        ∧ (s.setImageNegative i).negative.headI.getD i false = true
        ∧ (∀ j, j ≠ i →
            (s.setImageNegative i).positive.headI.getD j false
                = s.positive.headI.getD j false
              ∧ (s.setImageNegative i).negative.headI.getD j false
                = s.negative.headI.getD j false)
        ∧ (∀ r, 1 ≤ r →
            (s.setImageNegative i).positive.getD r [] = s.positive.getD r []
              ∧ (s.setImageNegative i).negative.getD r [] = s.negative.getD r []))
      ∧ ((s.setImageNeutral i).groups = s.groups
        ∧ (s.setImageNeutral i).positive.headI.getD i false = false
        ∧ (s.setImageNeutral i).negative.headI.getD i false = false
        ∧ (∀ j, j ≠ i →
            (s.setImageNeutral i).positive.headI.getD j false
                = s.positive.headI.getD j false
              ∧ (s.setImageNeutral i).negative.headI.getD j false
                = s.negative.headI.getD j false)
        ∧ (∀ r, 1 ≤ r →
            (s.setImageNeutral i).positive.getD r [] = s.positive.getD r []
              ∧ (s.setImageNeutral i).negative.getD r [] = s.negative.getD r [])) := by
  refine ⟨⟨rfl, ?_, ?_, ?_, ?_⟩, ⟨rfl, ?_, ?_, ?_, ?_⟩, ⟨rfl, ?_, ?_, ?_, ?_⟩⟩ <;>
    first
      | (simp only [ArtSearch.setImagePositive, ArtSearch.setImageNegative,
          ArtSearch.setImageNeutral, setRow0_headI]
         first
           | exact getD_set_same _ _ _ _ hip
           | exact getD_set_same _ _ _ _ hin
           | (intro j hj; exact ⟨getD_set_ne _ _ _ _ _ hj, getD_set_ne _ _ _ _ _ hj⟩))
      | (intro r hr
         exact ⟨setRow0_getD_pos _ _ _ _ hr, setRow0_getD_pos _ _ _ _ hr⟩)

/-- Witness for `mark_canvas_frame` at a concrete state and index. -/
theorem mark_canvas_frame_witness :
    (0 < ([true, false] : List Bool).length
      ∧ ((⟨2, [3], [[true, false], [false, false]], [[false, true], [false, false]]⟩ :
            ArtSearch).setImagePositive 0).positive.headI.getD 0 false = true) :=
  ⟨by decide,
    ((mark_canvas_frame ⟨2, [3], [[true, false], [false, false]],
        [[false, true], [false, false]]⟩ 0 (by decide) (by decide)).1).2.1⟩

/-! ### `deserialize` index semantics (C6, C9) -/

theorem torchSetTrue_eq_none (row : List Bool) (i : ℤ) :
    torchSetTrue row i = none ↔ ¬inRangeZ row.length i := by
  unfold torchSetTrue inRangeZ
  split_ifs with h1 h2
  · simp only [iff_false_intro (Option.some_ne_none _), false_iff, not_not]
    omega
  · simp only [iff_false_intro (Option.some_ne_none _), false_iff, not_not]
    omega
  · simp only [true_iff]
    omega

theorem torchSetTrue_of_inRange (row : List Bool) (i : ℤ) (h : inRangeZ row.length i) :
    ∃ r, torchSetTrue row i = some r ∧ r.length = row.length := by
  unfold torchSetTrue
  rcases h with ⟨h1, h2⟩
  by_cases h0 : 0 ≤ i
  · exact ⟨row.set i.toNat true, by rw [if_pos ⟨h0, h2⟩], List.length_set _ _ _⟩
  · refine ⟨row.set (i + row.length).toNat true, ?_, List.length_set _ _ _⟩
    rw [if_neg (by omega), if_pos ⟨h1, by omega⟩]

theorem applyIdxs_append_fail (pre : List ℤ) (base : List Bool) (bad : ℤ) (rest : List ℤ)
    (hpre : ∀ i ∈ pre, inRangeZ base.length i) (hbad : ¬inRangeZ base.length bad) :
    applyIdxs base (pre ++ bad :: rest) = ((applyIdxs base pre).1, true) := by
  induction pre generalizing base with
  | nil =>
    have hnone : torchSetTrue base bad = none := (torchSetTrue_eq_none _ _).mpr hbad
    simp [applyIdxs, hnone]
  | cons a pre ih =>
    have ha : inRangeZ base.length a := hpre a (List.mem_cons_self a pre)
    obtain ⟨r, hr, hrlen⟩ := torchSetTrue_of_inRange base a ha
    have hpre' : ∀ i ∈ pre, inRangeZ r.length i := by
      intro i hi
      rw [hrlen]
      exact hpre i (List.mem_cons_of_mem a hi)
    have hbad' : ¬inRangeZ r.length bad := by rw [hrlen]; exact hbad
    simp only [List.cons_append, applyIdxs, hr]
    exact ih r hpre' hbad'

theorem applyIdxs_ofNat (idxs : List ℕ) (base : List Bool)
    (h : ∀ i ∈ idxs, i < base.length) :
    applyIdxs base (idxs.map Int.ofNat) = (setAll base idxs, false) := by
  induction idxs generalizing base with
  | nil => rfl
  | cons a t ih =>
    have ha : a < base.length := h a (List.mem_cons_self a t)
    have hset : torchSetTrue base (Int.ofNat a) = some (base.set a true) := by
      unfold torchSetTrue
      rw [if_pos ⟨Int.ofNat_nonneg a, Int.ofNat_lt.mpr ha⟩]
      simp
    simp only [List.map_cons, applyIdxs, hset]
    have ht : ∀ i ∈ t, i < (base.set a true).length := by
      intro i hi
      rw [List.length_set]
      exact h i (List.mem_cons_of_mem a hi)
    exact ih (base.set a true) ht

theorem setAll_length (idxs : List ℕ) (base : List Bool) :
    (setAll base idxs).length = base.length := by
  induction idxs generalizing base with
  | nil => rfl
  | cons a t ih =>
    show (setAll (base.set a true) t).length = _
    rw [ih, List.length_set]

theorem setAll_getD (idxs : List ℕ) (base : List Bool) (k : ℕ)
    (h : ∀ i ∈ idxs, i < base.length) :
    (setAll base idxs).getD k false = (base.getD k false || decide (k ∈ idxs)) := by
  induction idxs generalizing base with
  | nil => simp [setAll]
  | cons a t ih =>
    have ha : a < base.length := h a (List.mem_cons_self a t)
    have ht : ∀ i ∈ t, i < (base.set a true).length := by
      intro i hi
      rw [List.length_set]
      exact h i (List.mem_cons_of_mem a hi)
    show (setAll (base.set a true) t).getD k false = _
    rw [ih (base.set a true) ht]
    by_cases hk : k = a
    · subst hk
      rw [getD_set_same _ _ _ _ ha]
      simp
    · rw [getD_set_ne _ _ _ _ _ hk]
      simp [hk]

theorem mem_nonzeroIdx (row : List Bool) (k : ℕ) :
    k ∈ nonzeroIdx row ↔ k < row.length ∧ row.getD k false = true := by
  simp [nonzeroIdx, List.mem_filter, List.mem_range]

theorem getD_replicate_false (n k : ℕ) :
    (List.replicate n false).getD k false = false := by
  induction n generalizing k with
  | zero => rfl
  | succ n ih =>
    cases k with
    | zero => rfl
    | succ k => exact ih k

theorem applyIdxs_roundtrip (row : List Bool) (n : ℕ) (h : row.length = n) :
    applyIdxs (List.replicate n false) ((nonzeroIdx row).map Int.ofNat) = (row, false) := by
  have hb : ∀ i ∈ nonzeroIdx row, i < (List.replicate n false).length := by
    intro i hi
    rw [List.length_replicate, ← h]
    exact ((mem_nonzeroIdx row i).mp hi).1
  rw [applyIdxs_ofNat _ _ hb]
  have hlen : (setAll (List.replicate n false) (nonzeroIdx row)).length = row.length := by
    rw [setAll_length, List.length_replicate, h]
  have hext : setAll (List.replicate n false) (nonzeroIdx row) = row := by
    apply List.ext_getElem hlen
    intro k h1 h2
    have hk : k < row.length := h2
    have e1 : (setAll (List.replicate n false) (nonzeroIdx row))[k] =
        (setAll (List.replicate n false) (nonzeroIdx row)).getD k false := by
      rw [List.getD_eq_getElem?_getD, List.getElem?_eq_getElem h1]
      rfl
    have e2 : row[k] = row.getD k false := by
      rw [List.getD_eq_getElem?_getD, List.getElem?_eq_getElem h2]
      rfl
    rw [e1, e2, setAll_getD _ _ _ hb, getD_replicate_false]
    cases hrv : row.getD k false with
    | false =>
      have hnot : k ∉ nonzeroIdx row := by
        intro hc
        have hmem := ((mem_nonzeroIdx row k).mp hc).2
        rw [hrv] at hmem
        cases hmem
      rw [Bool.false_or]
      exact decide_eq_false hnot
    | true =>
      rw [Bool.false_or]
      exact decide_eq_true ((mem_nonzeroIdx row k).mpr ⟨hk, hrv⟩)
  rw [hext]

/-! ### C6: `deserialize` on malformed data -/

/-- C6 counterexample: deserializing `positive = [1, 5]` into a 2-item
collection raises (flag `true`), yet the prior relevance state is not
preserved: the group list is cleared and the in-range index 1 from the same
payload has been applied. -/
theorem deserialize_not_atomic_cex :
    (ArtSearch.deserialize
        ⟨2, [5], [[true, false], [false, false]], [[false, false], [false, false]]⟩
        ⟨[1, 5], []⟩).2 = true
      ∧ (ArtSearch.deserialize
          ⟨2, [5], [[true, false], [false, false]], [[false, false], [false, false]]⟩
          ⟨[1, 5], []⟩).1
        ≠ ⟨2, [5], [[true, false], [false, false]], [[false, false], [false, false]]⟩
      ∧ ((ArtSearch.deserialize
          ⟨2, [5], [[true, false], [false, false]], [[false, false], [false, false]]⟩
          ⟨[1, 5], []⟩).1.positive.headI.getD 1 false = true) := by
  decide

/-- C6 (corrected): when the persisted `positive` list contains a first
index outside torch range `[-n, n)` (after any number of in-range indices),
`deserialize` raises, but the state at that moment is not the prior state:
the group list is cleared, both matrices are reset to one all-false row, and
every in-range index preceding the failing one has been applied. -/
theorem deserialize_partial_on_error (s : ArtSearch) (data : SaveData)
    (pre : List ℤ) (bad : ℤ) (rest : List ℤ)
    (hsplit : data.positive = pre ++ bad :: rest)
    (hpre : ∀ i ∈ pre, inRangeZ s.n i)
    (hbad : ¬inRangeZ s.n bad) :
    s.deserialize data =
      (⟨s.n, [], [(applyIdxs (List.replicate s.n false) pre).1],
        [List.replicate s.n false]⟩, true) := by
  have hlen : (List.replicate s.n false).length = s.n := List.length_replicate _ _
  have hfail := applyIdxs_append_fail pre (List.replicate s.n false) bad rest
    (by rw [hlen]; exact hpre) (by rw [hlen]; exact hbad)
  simp only [ArtSearch.deserialize, hsplit, hfail]
  simp

/-- Witness for `deserialize_partial_on_error` at a concrete state. -/
theorem deserialize_partial_on_error_witness :
    (([(1 : ℤ), 5] : List ℤ) = [(1 : ℤ)] ++ (5 : ℤ) :: []
        ∧ (∀ i ∈ [(1 : ℤ)], inRangeZ 2 i) ∧ ¬inRangeZ 2 5)
      ∧ ArtSearch.deserialize
          ⟨2, [5], [[true, false], [false, false]], [[false, false], [false, false]]⟩
          ⟨[1, 5], []⟩
        = (⟨2, [], [(applyIdxs (List.replicate 2 false) [(1 : ℤ)]).1],
            [List.replicate 2 false]⟩, true) :=
  ⟨⟨by decide, by decide, by decide⟩,
    deserialize_partial_on_error
      ⟨2, [5], [[true, false], [false, false]], [[false, false], [false, false]]⟩
      ⟨[1, 5], []⟩ [(1 : ℤ)] 5 [] (by decide) (by decide) (by decide)⟩

/-! ### C9: `serialize` / `deserialize` round trip -/

/-- C9 (confirmed): deserializing the output of `serialize` restores exactly
the canvas (group 0) positive and negative rows, raises no error, and
nothing beyond this global mask survives: the group list is empty and both
matrices hold exactly the single canvas row. -/
theorem serialize_deserialize_roundtrip (s : ArtSearch)
    (hp : s.positive.headI.length = s.n) (hn : s.negative.headI.length = s.n) :
    s.deserialize s.serialize
      = (⟨s.n, [], [s.positive.headI], [s.negative.headI]⟩, false) := by
  simp only [ArtSearch.deserialize, ArtSearch.serialize,
    applyIdxs_roundtrip _ _ hp, applyIdxs_roundtrip _ _ hn]
  simp

/-- Witness for `serialize_deserialize_roundtrip` at a concrete state. -/
theorem serialize_deserialize_roundtrip_witness :
    (([[true, false]] : List (List Bool)).headI.length = 2
        ∧ ([[false, true]] : List (List Bool)).headI.length = 2)
      ∧ ArtSearch.deserialize ⟨2, [3], [[true, false]], [[false, true]]⟩
          (ArtSearch.serialize ⟨2, [3], [[true, false]], [[false, true]]⟩)
        = (⟨2, [], [[true, false]], [[false, true]]⟩, false) :=
  ⟨⟨by decide, by decide⟩,
    serialize_deserialize_roundtrip ⟨2, [3], [[true, false]], [[false, true]]⟩
      (by decide) (by decide)⟩

/-! ### C3: the margin loss formula -/

/-- C3 (confirmed): for unit-norm center and nonempty unit-norm positive and
negative sets, `CenterMarginLoss.forward` at the margin the `Embedder`
installs (0.1) is exactly the specified
`mean(d(c,p)) + mean(relu(max_p d(c,p) - d(c,q) + margin))` with
`d(x,y) = 1 - x·y`. -/
theorem center_margin_loss_spec (c : List ℚ) (P Q : List (List ℚ))
    (hc : unitQ c) (hP : ∀ p ∈ P, unitQ p) (hQ : ∀ q ∈ Q, unitQ q)
    (hPne : P ≠ []) (hQne : Q ≠ []) :
    embedderMargin = 1 / 10
      ∧ CenterMarginLoss.forward embedderMargin c P Q = specMarginLoss (1 / 10) c P Q := by
  refine ⟨rfl, ?_⟩
  simp only [CenterMarginLoss.forward, specMarginLoss, embedderMargin, List.map_map]
  rfl

/-- Witness for `center_margin_loss_spec` at concrete unit vectors. -/
theorem center_margin_loss_spec_witness :
    (unitQ [1, 0] ∧ (∀ p ∈ [[0, 1]], unitQ p) ∧ (∀ q ∈ [[1, 0]], unitQ q)
        ∧ ([[0, 1]] : List (List ℚ)) ≠ [] ∧ ([[1, 0]] : List (List ℚ)) ≠ [])
      ∧ CenterMarginLoss.forward embedderMargin [1, 0] [[0, 1]] [[1, 0]]
        = specMarginLoss (1 / 10) [1, 0] [[0, 1]] [[1, 0]] :=
  ⟨⟨by simp [unitQ, dotQ], by simp [unitQ, dotQ], by simp [unitQ, dotQ],
      by simp, by simp⟩,
    (center_margin_loss_spec [1, 0] [[0, 1]] [[1, 0]] (by simp [unitQ, dotQ])
      (by simp [unitQ, dotQ]) (by simp [unitQ, dotQ]) (by simp) (by simp)).2⟩

/-! ### C8: degenerate groups are skipped -/

theorem foldl_if_filter {α β : Type*} (c : α → Bool) (g : β → α → β) (l : List α) (m : β) :
    l.foldl (fun cur j => if c j then cur else g cur j) m
      = (l.filter (fun j => !c j)).foldl g m := by
  induction l generalizing m with
  | nil => rfl
  | cons a t ih =>
    by_cases hc : c a
    · simp [List.filter_cons, hc, ih]
    · simp only [List.foldl_cons, List.filter_cons]
      rw [if_neg hc]
      simp only [hc, Bool.not_false, if_pos]
      rw [List.foldl_cons, ih]

/-- C8 (confirmed): a training pass touches exactly the groups with at least
one positive and one negative example — for any optimizer step function, the
pass equals folding the step over the non-degenerate group indices only —
and when every group lacks positives or lacks negatives the pass returns the
parameters unchanged, so the recomputed refined table is also unchanged. -/
theorem optimize_embedding_skips_degenerate {d : ℕ} {γ : Type*}
    (step : LocalSplitMLP d → ℕ → LocalSplitMLP d) (m : LocalSplitMLP d)
    (group_embeddings : List γ) (pos_example neg_example : List (List (Vec d))) :
    (Embedder.optimize_embedding step m group_embeddings pos_example neg_example
        = ((List.range group_embeddings.length).filter
            (fun j => !((pos_example.getD j []).isEmpty
              || (neg_example.getD j []).isEmpty))).foldl step m)
      ∧ ((∀ j < group_embeddings.length,
            (pos_example.getD j []).isEmpty ∨ (neg_example.getD j []).isEmpty) →
          Embedder.optimize_embedding step m group_embeddings pos_example neg_example = m
            ∧ ∀ encodings : List (Vec d),
              update_embedding
                  (Embedder.optimize_embedding step m group_embeddings pos_example
                    neg_example) encodings
                = update_embedding m encodings) := by
  have hfold : Embedder.optimize_embedding step m group_embeddings pos_example neg_example
      = ((List.range group_embeddings.length).filter
          (fun j => !((pos_example.getD j []).isEmpty
            || (neg_example.getD j []).isEmpty))).foldl step m := by
    unfold Embedder.optimize_embedding
    exact foldl_if_filter _ _ _ _
  refine ⟨hfold, fun hdeg => ?_⟩
  have hnil : ((List.range group_embeddings.length).filter
      (fun j => !((pos_example.getD j []).isEmpty
        || (neg_example.getD j []).isEmpty))) = [] := by
    rw [List.filter_eq_nil_iff]
    intro j hj
    have hjlt : j < group_embeddings.length := List.mem_range.mp hj
    rcases hdeg j hjlt with h | h
    · simp only [h, Bool.true_or, Bool.not_true]
      exact Bool.false_ne_true
    · simp only [h, Bool.or_true, Bool.not_true]
      exact Bool.false_ne_true
  have hm : Embedder.optimize_embedding step m group_embeddings pos_example neg_example
      = m := by rw [hfold, hnil]; rfl
  exact ⟨hm, fun encodings => by rw [hm]⟩

/-- Witness for `optimize_embedding_skips_degenerate`: two degenerate groups
(one with no positives, one with no negatives) and a step function that
would visibly change the parameters if it ran. -/
theorem optimize_embedding_skips_degenerate_witness :
    ((∀ j < ([(), ()] : List Unit).length,
        (([[], [fun _ => 1]] : List (List (Vec 2))).getD j []).isEmpty
          ∨ (([[fun _ => 1], []] : List (List (Vec 2))).getD j []).isEmpty)
      ∧ Embedder.optimize_embedding (fun cur _ => mC2) mC2 ([(), ()] : List Unit)
            ([[], [fun _ => 1]] : List (List (Vec 2)))
            ([[fun _ => 1], []] : List (List (Vec 2)))
          = mC2) :=
  ⟨by decide,
    ((optimize_embedding_skips_degenerate (fun cur _ => mC2) mC2 [(), ()]
        [[], [fun _ => 1]] [[fun _ => 1], []]).2 (by decide)).1⟩

/-! ### C1: the validity mask and `topk` -/

theorem countP_range_getD (l : List Bool) :
    (List.range l.length).countP (fun i => l.getD i false) = l.count true := by
  induction l with
  | nil => rfl
  | cons b t ih =>
    rw [List.length_cons, List.range_succ_eq_map, List.countP_cons, List.countP_map]
    have hcomp : List.countP ((fun i => (b :: t).getD i false) ∘ Nat.succ)
        (List.range t.length) = List.countP (fun i => t.getD i false) (List.range t.length) := by
      apply List.countP_congr
      intro x hx
      simp [Function.comp, List.getD_cons_succ]
    rw [hcomp, ih, List.count_cons]
    cases b <;> simp

theorem topk_indices_valid (tbl : List (List ℚ)) (valid : List Bool) (q : List ℚ) (m : ℕ)
    (hlen : valid.length = tbl.length)
    (hpos : ∀ i, valid.getD i false = true → 0 < dotQ (tbl.getD i []) q)
    (hm : m ≤ valid.count true) :
    ∀ j ∈ topk_indices tbl valid q m, valid.getD j false = true := by
  intro j hj
  unfold topk_indices at hj
  obtain ⟨p, hpTake, hpj⟩ := List.mem_map.mp hj
  have hperm : (List.insertionSort simRank (rank_pairs tbl valid q)).Perm
      (rank_pairs tbl valid q) := List.perm_insertionSort simRank _
  have hsort : (List.insertionSort simRank (rank_pairs tbl valid q)).Sorted simRank :=
    List.sorted_insertionSort simRank _
  have hchar : ∀ i, (decide (0 < sim_row tbl valid q i)) = valid.getD i false := by
    intro i
    cases hv : valid.getD i false with
    | true =>
      have h1 := hpos i hv
      have hsim : sim_row tbl valid q i = dotQ (tbl.getD i []) q := by
        unfold sim_row
        rw [hv]
        simp
      rw [hsim]
      exact decide_eq_true h1
    | false =>
      have hsim : sim_row tbl valid q i = 0 := by
        unfold sim_row
        rw [hv]
        simp
      rw [hsim]
      simp
  have hcount : (rank_pairs tbl valid q).countP (fun p => decide (0 < p.2))
      = valid.count true := by
    unfold rank_pairs
    rw [List.countP_map]
    have heq : List.countP ((fun p : ℕ × ℚ => decide (0 < p.2))
          ∘ fun i => (i, sim_row tbl valid q i)) (List.range tbl.length)
        = List.countP (fun i => valid.getD i false) (List.range tbl.length) := by
      apply List.countP_congr
      intro x hx
      simp only [Function.comp]
      rw [hchar x]
    rw [heq, ← hlen, countP_range_getD]
  obtain ⟨idx, hidxlt, hidxeq⟩ := List.mem_iff_getElem.mp hpTake
  have hidxm : idx < m := by
    have := hidxlt
    rw [List.length_take] at this
    omega
  have hidxS : idx < (List.insertionSort simRank (rank_pairs tbl valid q)).length := by
    have := hidxlt
    rw [List.length_take] at this
    omega
  have hgetS : (List.insertionSort simRank (rank_pairs tbl valid q))[idx] = p := by
    rw [← hidxeq]
    exact (List.getElem_take _).symm
  have hp2 : 0 < p.2 := by
    by_contra hle
    push_neg at hle
    have hdropzero : List.countP (fun x : ℕ × ℚ => decide (0 < x.2))
        ((List.insertionSort simRank (rank_pairs tbl valid q)).drop idx) = 0 := by
      rw [List.countP_eq_zero]
      intro x hx
      obtain ⟨j2, hj2, hxeq⟩ := List.mem_iff_getElem.mp hx
      have hj2S : idx + j2 <
          (List.insertionSort simRank (rank_pairs tbl valid q)).length := by
        have := hj2
        rw [List.length_drop] at this
        omega
      have hget : ((List.insertionSort simRank (rank_pairs tbl valid q)).drop idx)[j2]
          = (List.insertionSort simRank (rank_pairs tbl valid q))[idx + j2] :=
        List.getElem_drop _
      have hx2 : x.2 ≤ p.2 := by
        rcases Nat.eq_zero_or_pos j2 with h0 | hposj
        · subst h0
          rw [← hxeq, hget]
          simp only [Nat.add_zero, hgetS]
          exact le_refl _
        · have hrel := hsort.rel_get_of_lt
            (a := ⟨idx, hidxS⟩) (b := ⟨idx + j2, hj2S⟩)
            (by simp only [Fin.mk_lt_mk]; omega)
          simp only [List.get_eq_getElem, hgetS] at hrel
          have hxg : x = (List.insertionSort simRank (rank_pairs tbl valid q))[idx + j2] := by
            rw [← hxeq, hget]
          rcases hrel with h | ⟨h, _⟩
          · rw [hxg]
            exact le_of_lt h
          · rw [hxg]
            exact le_of_eq h.symm
      have : ¬(0 < x.2) := fun hc => absurd (lt_of_lt_of_le hc hx2) (not_lt.mpr hle)
      simpa using this
    have hcntS : List.countP (fun x : ℕ × ℚ => decide (0 < x.2))
        (List.insertionSort simRank (rank_pairs tbl valid q)) = valid.count true := by
      rw [hperm.countP_eq, hcount]
    have hsplit := List.take_append_drop idx (List.insertionSort simRank (rank_pairs tbl valid q))
    have hbound : valid.count true ≤ idx := by
      rw [← hcntS]
      conv_lhs => rw [← hsplit]
      rw [List.countP_append, hdropzero, Nat.add_zero]
      calc List.countP _ ((List.insertionSort simRank (rank_pairs tbl valid q)).take idx)
          ≤ ((List.insertionSort simRank (rank_pairs tbl valid q)).take idx).length :=
            List.countP_le_length _
        _ ≤ idx := by rw [List.length_take]; exact min_le_left _ _
    omega
  have hpP : p ∈ rank_pairs tbl valid q := hperm.mem_iff.mp (List.mem_of_mem_take hpTake)
  obtain ⟨i, hi, hpe⟩ := List.mem_map.mp hpP
  have hj_eq : j = i := by rw [← hpj, ← hpe]
  have hsim : 0 < sim_row tbl valid q i := by
    have : p.2 = sim_row tbl valid q i := by rw [← hpe]
    rw [← this]
    exact hp2
  cases hv : valid.getD i false with
  | true => rw [hj_eq]; exact hv
  | false =>
    exfalso
    have hzero : sim_row tbl valid q i = 0 := by
      unfold sim_row
      rw [hv]
      simp
    rw [hzero] at hsim
    exact lt_irrefl 0 hsim

/-- C1 counterexample: with item 0 placed on the canvas (positive in group
0), the mask from `restrict_search` marks only item 1 valid; querying with
features anti-aligned to item 1's embedding makes the single valid item
score `-1`, while the masked-out item 0 scores exactly 0 after zeroing — so
`search_by_text` returns the masked item 0. -/
theorem search_returns_masked_item :
    restrict_search [true, false] [false, false] [] = [false, true]
      ∧ SearchEngine.search_by_text ⟨[[1, 0], [0, 1]], [[1, 0], [0, 1]], true⟩
          [false, true] [0, -1] 2 = [0]
      ∧ ([true, false] : List Bool).getD 0 false = true := by
  refine ⟨by decide, ?_, rfl⟩
  show topk_indices [[1, 0], [0, 1]] [false, true] [0, -1]
      (min 2 (List.count true [false, true])) = [0]
  have hmin : min 2 (List.count true [false, true]) = 1 := by decide
  rw [hmin]
  norm_num [topk_indices, rank_pairs, sim_row, dotQ, simRank, List.insertionSort,
    List.orderedInsert, List.range_succ]

/-- C1 (corrected): zeroing invalid rows only keeps them out of the top-k
when every valid item scores strictly positively; under that proviso every
index returned by `search_by_text` and `search_by_image` satisfies the
validity mask.  (Without it a masked item's exact 0 can beat a valid item's
negative similarity, as `search_returns_masked_item` shows.) -/
theorem search_results_respect_mask (e : SearchEngine) (valid : List Bool)
    (tf imf : List ℚ) (k : ℕ)
    (hlen : valid.length = e.table.length)
    (ht : ∀ i, valid.getD i false = true → 0 < dotQ (e.table.getD i []) tf)
    (him : ∀ i, valid.getD i false = true → 0 < dotQ (e.table.getD i []) imf) :
    (∀ j ∈ e.search_by_text valid tf k, valid.getD j false = true)
      ∧ (∀ j ∈ e.search_by_image valid imf k, valid.getD j false = true) :=
  ⟨topk_indices_valid e.table valid tf _ hlen ht (min_le_right _ _),
    topk_indices_valid e.table valid imf _ hlen him (min_le_right _ _)⟩

/-- Witness for `search_results_respect_mask` at a concrete engine. -/
theorem search_results_respect_mask_witness :
    (([true] : List Bool).length = (⟨[[1]], [[1]], true⟩ : SearchEngine).table.length
        ∧ (∀ i, ([true] : List Bool).getD i false = true →
            0 < dotQ ((⟨[[1]], [[1]], true⟩ : SearchEngine).table.getD i []) [1]))
      ∧ (∀ j ∈ SearchEngine.search_by_text ⟨[[1]], [[1]], true⟩ [true] [1] 1,
          ([true] : List Bool).getD j false = true) :=
  ⟨⟨rfl, fun i hvi => by
      cases i with
      | zero => simp [SearchEngine.table, dotQ]
      | succ n => simp at hvi⟩,
    (search_results_respect_mask ⟨[[1]], [[1]], true⟩ [true] [1] [1] 1 rfl
      (fun i hvi => by
        cases i with
        | zero => simp [SearchEngine.table, dotQ]
        | succ n => simp at hvi)
      (fun i hvi => by
        cases i with
        | zero => simp [SearchEngine.table, dotQ]
        | succ n => simp at hvi)).1⟩

/-! ### `listMax` lemmas -/

theorem init_le_foldl_max {α : Type*} [LinearOrder α] (t : List α) (a : α) :
    a ≤ t.foldl max a := by
  induction t generalizing a with
  | nil => exact le_refl a
  | cons b t ih => exact le_trans (le_max_left a b) (ih (max a b))

theorem mem_le_foldl_max {α : Type*} [LinearOrder α] (t : List α) (a x : α) (h : x ∈ t) :
    x ≤ t.foldl max a := by
  induction t generalizing a with
  | nil => cases h
  | cons b t ih =>
    rcases List.mem_cons.mp h with rfl | hx
    · exact le_trans (le_max_right a x) (init_le_foldl_max t (max a x))
    · exact ih (max a b) hx

theorem le_listMax {α : Type*} [LinearOrder α] [Zero α] {l : List α} {x : α} (h : x ∈ l) :
    x ≤ listMax l := by
  cases l with
  | nil => cases h
  | cons a t =>
    rcases List.mem_cons.mp h with rfl | hx
    · exact init_le_foldl_max t x
    · exact mem_le_foldl_max t a x hx

theorem foldl_max_le {α : Type*} [LinearOrder α] (t : List α) (a y : α) (ha : a ≤ y)
    (h : ∀ x ∈ t, x ≤ y) : t.foldl max a ≤ y := by
  induction t generalizing a with
  | nil => exact ha
  | cons b t ih =>
    exact ih (max a b) (max_le ha (h b (List.mem_cons_self b t)))
      (fun x hx => h x (List.mem_cons_of_mem b hx))

theorem listMax_le {α : Type*} [LinearOrder α] [Zero α] {l : List α} (hne : l ≠ [])
    {y : α} (h : ∀ x ∈ l, x ≤ y) : listMax l ≤ y := by
  cases l with
  | nil => exact absurd rfl hne
  | cons a t =>
    exact foldl_max_le t a y (h a (List.mem_cons_self a t))
      (fun x hx => h x (List.mem_cons_of_mem a hx))

theorem foldl_max_init_comm {α : Type*} [LinearOrder α] (t : List α) (a b : α) :
    t.foldl max (max a b) = max a (t.foldl max b) := by
  induction t generalizing b with
  | nil => rfl
  | cons c t ih =>
    simp only [List.foldl_cons]
    rw [max_assoc, ih]

theorem listMax_cons {α : Type*} [LinearOrder α] [Zero α] (a : α) {t : List α} (ht : t ≠ []) :
    listMax (a :: t) = max a (listMax t) := by
  cases t with
  | nil => exact absurd rfl ht
  | cons b t' =>
    show (b :: t').foldl max a = max a (t'.foldl max b)
    simp only [List.foldl_cons]
    exact foldl_max_init_comm t' a b

theorem listMax_append {α : Type*} [LinearOrder α] [Zero α] {xs ys : List α}
    (hx : xs ≠ []) (hy : ys ≠ []) :
    listMax (xs ++ ys) = max (listMax xs) (listMax ys) := by
  cases xs with
  | nil => exact absurd rfl hx
  | cons x xs' =>
    cases ys with
    | nil => exact absurd rfl hy
    | cons y ys' =>
      show ((xs' ++ y :: ys').foldl max x) = _
      rw [List.foldl_append]
      show ys'.foldl max (max (xs'.foldl max x) y) = _
      rw [foldl_max_init_comm]
      rfl

theorem foldl_max_map {α β : Type*} [LinearOrder α] [LinearOrder β] {f : α → β}
    (hf : Monotone f) (t : List α) (a : α) :
    (t.map f).foldl max (f a) = f (t.foldl max a) := by
  induction t generalizing a with
  | nil => rfl
  | cons b t ih =>
    simp only [List.map_cons, List.foldl_cons]
    rw [← hf.map_max, ih]

theorem listMax_map_mono {α β : Type*} [LinearOrder α] [Zero α] [LinearOrder β] [Zero β]
    {f : α → β} (hf : Monotone f) {l : List α} (hne : l ≠ []) :
    listMax (l.map f) = f (listMax l) := by
  cases l with
  | nil => exact absurd rfl hne
  | cons a t => exact foldl_max_map hf t a

theorem flatMap_ne_nil {α β : Type*} {l : List α} {f : α → List β} (hne : l ≠ [])
    (hb : ∀ x ∈ l, f x ≠ []) : l.flatMap f ≠ [] := by
  cases l with
  | nil => exact absurd rfl hne
  | cons a t =>
    simp only [List.flatMap_cons]
    intro hc
    exact hb a (List.mem_cons_self a t) (List.append_eq_nil.mp hc).1

theorem listMax_flatMap {α β : Type*} [LinearOrder β] [Zero β] {l : List α}
    {f : α → List β} (hne : l ≠ []) (hb : ∀ x ∈ l, f x ≠ []) :
    listMax (l.flatMap f) = listMax (l.map (fun x => listMax (f x))) := by
  induction l with
  | nil => exact absurd rfl hne
  | cons a t ih =>
    rcases eq_or_ne t [] with rfl | htne
    · show listMax (f a ++ ([] : List α).flatMap f) = _
      simp only [List.flatMap_nil, List.append_nil]
      rfl
    · have hbt : ∀ x ∈ t, f x ≠ [] := fun x hx => hb x (List.mem_cons_of_mem a hx)
      have h1 : listMax ((a :: t).flatMap f)
          = max (listMax (f a)) (listMax (t.flatMap f)) := by
        show listMax (f a ++ t.flatMap f) = _
        exact listMax_append (hb a (List.mem_cons_self a t)) (flatMap_ne_nil htne hbt)
      rw [h1, ih htne hbt, List.map_cons,
        listMax_cons _ (fun hc => htne (List.map_eq_nil.mp hc))]

/-! ### Dot products, normalization, Cauchy-Schwarz -/

theorem dotR_self_nonneg {d : ℕ} (v : Vec d) : 0 ≤ dotR v v :=
  Finset.sum_nonneg (fun i _ => mul_self_nonneg _)

theorem dotR_smul_smul {d : ℕ} (a b : ℝ) (u v : Vec d) :
    dotR (a • u) (b • v) = a * b * dotR u v := by
  unfold dotR
  rw [Finset.mul_sum]
  apply Finset.sum_congr rfl
  intro i _
  simp only [Pi.smul_apply, smul_eq_mul]
  ring

theorem dotR_cauchy {d : ℕ} (u v : Vec d) :
    dotR u v ≤ Real.sqrt (dotR u u) * Real.sqrt (dotR v v) := by
  have h2 : (dotR u v) ^ 2 ≤ dotR u u * dotR v v := by
    have hcs := Finset.sum_mul_sq_le_sq_mul_sq Finset.univ u v
    unfold dotR
    calc (∑ i, u i * v i) ^ 2
        ≤ (∑ i, u i ^ 2) * ∑ i, v i ^ 2 := hcs
      _ = (∑ i, u i * u i) * ∑ i, v i * v i := by simp [pow_two]
  calc dotR u v ≤ |dotR u v| := le_abs_self _
    _ = Real.sqrt ((dotR u v) ^ 2) := (Real.sqrt_sq_eq_abs _).symm
    _ ≤ Real.sqrt (dotR u u * dotR v v) := Real.sqrt_le_sqrt h2
    _ = Real.sqrt (dotR u u) * Real.sqrt (dotR v v) :=
        Real.sqrt_mul (dotR_self_nonneg u) _

theorem dot_nrm_le_one {d : ℕ} (u v : Vec d) : dotR (nrm u) (nrm v) ≤ 1 := by
  unfold nrm
  rw [dotR_smul_smul]
  have ha0 : 0 ≤ Real.sqrt (dotR u u) := Real.sqrt_nonneg _
  have hb0 : 0 ≤ Real.sqrt (dotR v v) := Real.sqrt_nonneg _
  rcases eq_or_lt_of_le ha0 with hz | hpos
  · rw [← hz]
    simp
  rcases eq_or_lt_of_le hb0 with hzb | hposb
  · rw [← hzb]
    simp
  have hle := dotR_cauchy u v
  calc (Real.sqrt (dotR u u))⁻¹ * (Real.sqrt (dotR v v))⁻¹ * dotR u v
      ≤ (Real.sqrt (dotR u u))⁻¹ * (Real.sqrt (dotR v v))⁻¹
          * (Real.sqrt (dotR u u) * Real.sqrt (dotR v v)) := by
        apply mul_le_mul_of_nonneg_left hle
        positivity
    _ = 1 := by field_simp

/-! ### C7: the gate for a single embedding -/

/-- C7 (confirmed): for a single embedding, `LocalSplitMLP.weight` is
exactly 0 when no centers are registered, and otherwise equals
`exp(-10 * (1 - max cosine similarity to the centers))`, a value in
`[0, 1]`. -/
theorem weight_single_formula {d : ℕ} (m : LocalSplitMLP d) (e : Vec d) :
    (m.weight [e]
        = if m.center.isEmpty then 0
          else Real.exp (-10 * (1 - listMax (m.center.map (fun c => dotR (nrm e) (nrm c))))))
      ∧ 0 ≤ m.weight [e] ∧ m.weight [e] ≤ 1 := by
  have hmono : Monotone (fun s : ℝ => Real.exp (-10 * (1 - s))) := by
    intro x y hxy
    apply Real.exp_le_exp.mpr
    linarith
  cases hcl : m.center with
  | nil =>
    have he : m.center.isEmpty = true := by rw [hcl]; rfl
    unfold LocalSplitMLP.weight
    rw [he]
    simp
  | cons c cs =>
    have he : m.center.isEmpty = false := by rw [hcl]; rfl
    have hmapne : m.center.map (fun cc => dotR (nrm e) (nrm cc)) ≠ [] := by
      rw [hcl]
      simp
    have hformula : m.weight [e]
        = Real.exp (-10 * (1 - listMax (m.center.map (fun cc => dotR (nrm e) (nrm cc))))) := by
      unfold LocalSplitMLP.weight
      rw [he]
      simp only [Bool.false_eq_true, if_false]
      have hp : pairSims [e] m.center
          = (m.center.map (fun cc => dotR (nrm e) (nrm cc))).map
              (fun s => Real.exp (-10 * (1 - s))) := by
        unfold pairSims
        simp [List.map_map, Function.comp]
      rw [hp, listMax_map_mono hmono hmapne]
    refine ⟨?_, ?_, ?_⟩
    · rw [hformula, hcl]
      simp
    · rw [hformula]
      exact (Real.exp_pos _).le
    · rw [hformula]
      rw [Real.exp_le_one_iff]
      have hM : listMax (m.center.map (fun cc => dotR (nrm e) (nrm cc))) ≤ 1 := by
        apply listMax_le hmapne
        intro x hx
        obtain ⟨cc, hcc, rfl⟩ := List.mem_map.mp hx
        exact dot_nrm_le_one e cc
      linarith

/-! ### C2: the gate over a batch -/

theorem pairSims_flatMap {d : ℕ} (inp C : List (Vec d)) :
    pairSims inp C = inp.flatMap (fun x => pairSims [x] C) := by
  induction inp with
  | nil => rfl
  | cons a t ih =>
    have expand : pairSims (a :: t) C = pairSims [a] C ++ pairSims t C := by
      unfold pairSims
      simp [List.flatMap_cons]
    rw [expand, ih, List.flatMap_cons]

/-- C2 (corrected): the gate of `encode_image`/`encode_text` is a single
scalar shared by the whole batch, equal to the maximum over the batch's
items of each item's individual gate; it is not a per-item quantity, so an
item far from every center is only guaranteed to pass through essentially
unchanged when every item of the batch is far from every center (in
particular for singleton batches). -/
theorem weight_is_batch_global {d : ℕ} (m : LocalSplitMLP d) (inp : List (Vec d))
    (h : inp ≠ []) :
    m.weight inp = listMax (inp.map (fun x => m.weight [x])) := by
  cases hcl : m.center with
  | nil =>
    have he : m.center.isEmpty = true := by rw [hcl]; rfl
    obtain ⟨a, t, rfl⟩ : ∃ a t, inp = a :: t := by
      cases inp with
      | nil => exact absurd rfl h
      | cons a t => exact ⟨a, t, rfl⟩
    have hzero : ∀ x : Vec d, m.weight [x] = 0 := by
      intro x
      unfold LocalSplitMLP.weight
      rw [he]
      rfl
    have hz2 : m.weight (a :: t) = 0 := by
      unfold LocalSplitMLP.weight
      rw [he]
      rfl
    rw [hz2]
    have hmem : (0 : ℝ) ∈ (a :: t).map (fun x => m.weight [x]) := by
      rw [List.mem_map]
      exact ⟨a, List.mem_cons_self a t, hzero a⟩
    have hle1 : (0 : ℝ) ≤ listMax ((a :: t).map fun x => m.weight [x]) := le_listMax hmem
    have hle2 : listMax ((a :: t).map fun x => m.weight [x]) ≤ 0 := by
      apply listMax_le (by simp)
      intro y hy
      obtain ⟨x, hx, rfl⟩ := List.mem_map.mp hy
      rw [hzero x]
    exact le_antisymm hle1 hle2
  | cons c cs =>
    have he : m.center.isEmpty = false := by rw [hcl]; rfl
    have hblocks : ∀ x ∈ inp, pairSims [x] m.center ≠ [] := by
      intro x hx
      unfold pairSims
      simp [hcl]
    have h1 : m.weight inp = listMax (pairSims inp m.center) := by
      unfold LocalSplitMLP.weight
      rw [he]
      rfl
    have h2 : ∀ x : Vec d, m.weight [x] = listMax (pairSims [x] m.center) := by
      intro x
      unfold LocalSplitMLP.weight
      rw [he]
      rfl
    rw [h1, pairSims_flatMap, listMax_flatMap h hblocks]
    congr 1
    apply List.map_congr_left
    intro x hx
    exact (h2 x).symm

/-- Witness for `weight_is_batch_global` at a concrete model and batch. -/
theorem weight_is_batch_global_witness :
    (([![1, 0]] : List (Vec 2)) ≠ []
      ∧ mC2.weight [![1, 0]]
        = listMax (([![1, 0]] : List (Vec 2)).map (fun x => mC2.weight [x]))) :=
  ⟨List.cons_ne_nil _ _,
    weight_is_batch_global mC2 [![1, 0]] (List.cons_ne_nil _ _)⟩

theorem dotR_e0_e0 : dotR (![1, 0] : Vec 2) ![1, 0] = 1 := by
  simp [dotR, Fin.sum_univ_two]

theorem dotR_e1_e1 : dotR (![0, 1] : Vec 2) ![0, 1] = 1 := by
  simp [dotR, Fin.sum_univ_two]

theorem dotR_e0_e1 : dotR (![1, 0] : Vec 2) ![0, 1] = 0 := by
  simp [dotR, Fin.sum_univ_two]

theorem dotR_e1_e0 : dotR (![0, 1] : Vec 2) ![1, 0] = 0 := by
  simp [dotR, Fin.sum_univ_two]

theorem nrm_e0 : nrm (![1, 0] : Vec 2) = ![1, 0] := by
  unfold nrm
  rw [dotR_e0_e0, Real.sqrt_one, inv_one, one_smul]

theorem nrm_e1 : nrm (![0, 1] : Vec 2) = ![0, 1] := by
  unfold nrm
  rw [dotR_e1_e1, Real.sqrt_one, inv_one, one_smul]

theorem linearApply_cex : linearApply idm2 ![1, 0] (![0, 1] : Vec 2) = ![1, 1] := by
  funext i
  fin_cases i <;> simp [linearApply, idm2, Fin.sum_univ_two]

theorem weight_cex : mC2.weight [![1, 0], ![0, 1]] = 1 := by
  have hpair : pairSims ([![1, 0], ![0, 1]] : List (Vec 2)) mC2.center
      = [Real.exp 0, Real.exp (-10)] := by
    show pairSims [![1, 0], ![0, 1]] [![1, 0]] = _
    unfold pairSims
    simp only [List.map_cons, List.map_nil, List.flatMap_cons, List.flatMap_nil,
      List.append_nil, nrm_e0, nrm_e1, dotR_e0_e0, dotR_e1_e0]
    norm_num
  have hne : mC2.center.isEmpty = false := rfl
  unfold LocalSplitMLP.weight
  rw [hne]
  simp only [Bool.false_eq_true, if_false, hpair]
  show max (Real.exp 0) (Real.exp (-10)) = 1
  rw [max_eq_left (Real.exp_le_exp.mpr (by norm_num)), Real.exp_zero]

theorem sqrt_two_inv_ge_half : (1 / 2 : ℝ) ≤ (Real.sqrt 2)⁻¹ := by
  have hpos : 0 < Real.sqrt 2 := Real.sqrt_pos.mpr (by norm_num)
  have hle : Real.sqrt 2 ≤ 2 := by
    nlinarith [Real.sq_sqrt (show (0 : ℝ) ≤ 2 by norm_num), Real.sqrt_nonneg 2]
  calc (1 : ℝ) / 2 ≤ 1 / Real.sqrt 2 := one_div_le_one_div_of_le hpos hle
    _ = (Real.sqrt 2)⁻¹ := one_div _

/-- C2 counterexample: the model `mC2` has a single center `(1,0)`; the
batch item `(0,1)` has cosine similarity 0 to that center (it is far from
every registered center), yet because the other batch item sits exactly on
the center the shared gate is 1, and the far item's refined row moves its
first coordinate from 0 to at least 1/2 — the item does not pass through
(essentially) unchanged, and its gate depended on the other batch item. -/
theorem encode_image_moves_far_item :
    dotR (nrm (![0, 1] : Vec 2)) (nrm (![1, 0] : Vec 2)) = 0
      ∧ mC2.center = [![1, 0]]
      ∧ (1 / 2 : ℝ) ≤ ((mC2.encode_image [![1, 0], ![0, 1]]).getD 1 (fun _ => 0)) 0
      ∧ (![0, 1] : Vec 2) 0 = 0 := by
  refine ⟨by rw [nrm_e0, nrm_e1]; exact dotR_e1_e0, rfl, ?_, by simp⟩
  have hrow : (mC2.encode_image [![1, 0], ![0, 1]]).getD 1 (fun _ => 0)
      = nrm (mC2.weight [![1, 0], ![0, 1]]
            • nrm (linearApply mC2.mlp_text_weight mC2.mlp_text_bias ![0, 1])
          + (1 - mC2.weight [![1, 0], ![0, 1]]) • (![0, 1] : Vec 2)) := by
    rfl
  have hWt : mC2.mlp_text_weight = idm2 := rfl
  have hbt : mC2.mlp_text_bias = ![1, 0] := rfl
  rw [hrow, hWt, hbt, weight_cex, linearApply_cex, one_smul, sub_self, zero_smul,
    add_zero]
  have hdot11 : dotR (![1, 1] : Vec 2) ![1, 1] = 2 := by
    simp [dotR, Fin.sum_univ_two]
    norm_num
  have hnrm11 : nrm (![1, 1] : Vec 2) = (Real.sqrt 2)⁻¹ • ![1, 1] := by
    unfold nrm
    rw [hdot11]
  rw [hnrm11]
  have hunit : dotR ((Real.sqrt 2)⁻¹ • (![1, 1] : Vec 2)) ((Real.sqrt 2)⁻¹ • ![1, 1])
      = 1 := by
    rw [dotR_smul_smul, hdot11]
    have h2 : Real.sqrt 2 * Real.sqrt 2 = 2 :=
      Real.mul_self_sqrt (by norm_num)
    rw [← mul_inv, h2]
    norm_num
  have hfix : nrm ((Real.sqrt 2)⁻¹ • (![1, 1] : Vec 2))
      = (Real.sqrt 2)⁻¹ • ![1, 1] := by
    unfold nrm
    rw [hunit, Real.sqrt_one, inv_one, one_smul]
  rw [hfix]
  have happ : ((Real.sqrt 2)⁻¹ • (![1, 1] : Vec 2)) 0 = (Real.sqrt 2)⁻¹ := by
    simp
  rw [happ]
  exact sqrt_two_inv_ge_half

end TTA
